import Mathlib

/-!
Verification development for the write-wise rich-text editor core.

The embedding models the editor toolbar module (`EditorToolbar`): the Slate
document tree restricted to the shapes the application builds (top-level
blocks, with one level of list nesting — the spec declares deeper nesting a
non-goal), the query functions `isBlockActive`, `isFormatActive`,
`isAlignActive`, `getCurrentHeading`, the commands `toggleBlock`,
`toggleFormat`, `toggleAlign`, the serializer `serializeToDocx`, and the
hydration effect of the `Home` page.

The Slate library primitives (`Transforms.unwrapNodes` with `split: true`,
`Transforms.setNodes`, `Transforms.wrapNodes`, `Editor.nodes` over a range,
`Editor.marks`) are not part of the repository; they are modelled from the
specification of DocumentModel and SelectionQueryEngine (spec sections 4.1
and 4.2).  A selection is represented by the contiguous interval of
block-level positions it intersects (for block commands) or of leaf
positions it covers (for mark commands); this flat-position view is stable
under the list wrap/unwrap and set-properties transforms, mirroring how
Slate transforms a selection through those operations.  The spec delegates
the splitting of partially covered leaves to the host editor, so leaf
coverage is whole-leaf.
-/

/-- A Slate text leaf (`CustomText` in the source): a string plus five
independent optional boolean marks.  `none` models a key that is absent
from the JavaScript object, `some b` a key explicitly set to `b`. -/
structure TextLeaf where
  text : String
  bold : Option Bool
  italic : Option Bool
  underline : Option Bool
  strike : Option Bool
  code : Option Bool
deriving DecidableEq

/-- The five mark names accepted by `toggleFormat`. -/
inductive Mark where
  | bold
  | italic
  | underline
  | strike
  | code
deriving DecidableEq

/-- Read the mark field named `m` from a leaf. -/
def getMark (l : TextLeaf) : Mark → Option Bool
  | Mark.bold => l.bold
  | Mark.italic => l.italic
  | Mark.underline => l.underline
  | Mark.strike => l.strike
  | Mark.code => l.code

/-- Write the mark field named `m` of a leaf (what `Editor.addMark` stores). -/
def setMark (m : Mark) (v : Option Bool) (l : TextLeaf) : TextLeaf :=
  match m with
  | Mark.bold => { l with bold := v }
  | Mark.italic => { l with italic := v }
  | Mark.underline => { l with underline := v }
  | Mark.strike => { l with strike := v }
  | Mark.code => { l with code := v }

/-- A block element holding text leaves (`CustomElement` whose children are
texts): its `type` string, optional `align` string, and its leaves. -/
structure SimpleBlock where
  ty : String
  align : Option String
  children : List TextLeaf
deriving DecidableEq

/-- A top-level node of the document: either a leaf-bearing block or a list
container holding item blocks (the one level of nesting the editor
produces). -/
inductive TopNode where
  | blk (b : SimpleBlock)
  | container (ty : String) (align : Option String) (items : List SimpleBlock)
deriving DecidableEq

/-- A document: the ordered list of `editor.children`. -/
abbrev Doc := List TopNode

/-- A block-level selection: the contiguous interval of flat block positions
the selection range intersects, starting at `lo`, of length `len`. -/
structure BSel where
  lo : Nat
  len : Nat
deriving DecidableEq

/-- A leaf-level selection: the contiguous interval of flat leaf positions
covered by the (expanded) selection range. -/
structure LSel where
  lo : Nat
  len : Nat
deriving DecidableEq

/-- Block position `i` lies inside the selection interval. -/
abbrev coveredP (s : BSel) (i : Nat) : Prop :=
  s.lo ≤ i ∧ i < s.lo + s.len

/-- The selection interval meets the block-position window of width `n`
starting at `i` (used for list containers, whose items occupy positions
`i, …, i+n-1`). -/
abbrev interP (s : BSel) (i n : Nat) : Prop :=
  s.lo - i < s.lo + s.len - i ∧ s.lo - i < n

/-- Leaf position `i` lies inside the leaf selection interval. -/
abbrev coveredL (s : LSel) (i : Nat) : Prop :=
  s.lo ≤ i ∧ i < s.lo + s.len

/-- `['bulleted-list', 'numbered-list'].includes(format)` from the source. -/
def isListTy (ty : String) : Bool :=
  ty == "bulleted-list" || ty == "numbered-list"

/-- The flat sequence of leaf-bearing blocks of a document (list containers
contribute their items, in order). -/
def flatBlocks : Doc → List SimpleBlock
  | [] => []
  | TopNode.blk b :: xs => b :: flatBlocks xs
  | TopNode.container _ _ items :: xs => items ++ flatBlocks xs

/-- Number of flat block positions a document occupies. -/
def flatLen : Doc → Nat
  | [] => 0
  | TopNode.blk _ :: xs => 1 + flatLen xs
  | TopNode.container _ _ items :: xs => items.length + flatLen xs

/-- All leaves of a list of blocks, in order. -/
def leavesOfBlocks : List SimpleBlock → List TextLeaf
  | [] => []
  | b :: bs => b.children ++ leavesOfBlocks bs

/-- Number of leaves held by a list of blocks. -/
def itemsLeafLen : List SimpleBlock → Nat
  | [] => 0
  | b :: bs => b.children.length + itemsLeafLen bs

/-- All leaves of a document, in order. -/
def docLeaves : Doc → List TextLeaf
  | [] => []
  | TopNode.blk b :: xs => b.children ++ docLeaves xs
  | TopNode.container _ _ items :: xs => leavesOfBlocks items ++ docLeaves xs

/-- Indexing into a list (the `n`-th element, if present). -/
def nth : List α → Nat → Option α
  | [], _ => none
  | x :: _, 0 => some x
  | _ :: xs, n + 1 => nth xs n

/-- Boolean check of a predicate under an `Option`: true when absent. -/
def optAll (p : α → Bool) : Option α → Bool
  | none => true
  | some a => p a

/-! ## Selection queries (`isBlockActive`, `isAlignActive`, `isFormatActive`,
`getCurrentHeading`) -/

/-- Does some covered item (a block inside a container) have type `ty`? -/
def anyItemTy (s : BSel) (ty : String) : Nat → List SimpleBlock → Bool
  | _, [] => false
  | i, b :: bs =>
    if coveredP s i ∧ b.ty = ty then true else anyItemTy s ty (i + 1) bs

/-- Walk of `Editor.nodes` over the selection range for `isBlockActive`:
every element intersecting the range is examined — covered leaf-bearing
blocks, containers whose item window meets the range, and covered items. -/
def blockActiveGo (s : BSel) (ty : String) : Nat → Doc → Bool
  | _, [] => false
  | i, TopNode.blk b :: xs =>
    if coveredP s i ∧ b.ty = ty then true else blockActiveGo s ty (i + 1) xs
  | i, TopNode.container t _ items :: xs =>
    if interP s i items.length ∧ t = ty then true
    else if anyItemTy s ty i items then true
    else blockActiveGo s ty (i + items.length) xs

/-- `isBlockActive`: false with no selection, otherwise true iff some
element in the selection range has exactly the given type. -/
def isBlockActive (ty : String) (sel : Option BSel) (doc : Doc) : Bool :=
  match sel with
  | none => false
  | some s => blockActiveGo s ty 0 doc

/-- `getCurrentHeading`: priority chain H1 → H2 → H3 → Normal. -/
def getCurrentHeading (sel : Option BSel) (doc : Doc) : String :=
  if isBlockActive "heading-one" sel doc then "H1"
  else if isBlockActive "heading-two" sel doc then "H2"
  else if isBlockActive "heading-three" sel doc then "H3"
  else "Normal"

/-- Does some covered item carry `align = alignment`? -/
def anyItemAlign (s : BSel) (al : String) : Nat → List SimpleBlock → Bool
  | _, [] => false
  | i, b :: bs =>
    if coveredP s i ∧ b.align = some al then true
    else anyItemAlign s al (i + 1) bs

/-- Walk of `Editor.nodes` for `isAlignActive`. -/
def alignActiveGo (s : BSel) (al : String) : Nat → Doc → Bool
  | _, [] => false
  | i, TopNode.blk b :: xs =>
    if coveredP s i ∧ b.align = some al then true
    else alignActiveGo s al (i + 1) xs
  | i, TopNode.container _ a items :: xs =>
    if interP s i items.length ∧ a = some al then true
    else if anyItemAlign s al i items then true
    else alignActiveGo s al (i + items.length) xs

/-- `isAlignActive`: true iff some element in the selection range has
`align` equal to the given alignment (false with no selection, since
`Editor.nodes` yields nothing when `at` is null). -/
def isAlignActive (al : String) (sel : Option BSel) (doc : Doc) : Bool :=
  match sel with
  | none => false
  | some s => alignActiveGo s al 0 doc

/-- `isFormatActive`: `Editor.marks` of an expanded selection are the marks
of the first text node in the range; the function tests `marks[format] ===
true`. -/
def isFormatActive (m : Mark) (sel : Option LSel) (doc : Doc) : Bool :=
  match sel with
  | none => false
  | some s =>
    match nth (docLeaves doc) s.lo with
    | none => false
    | some l => getMark l m == some true

/-! ## Commands (`toggleBlock`, `toggleAlign`, `toggleFormat`) -/

/-- `Transforms.setNodes` restricted to a run of item blocks: apply the
property update `f` to every covered block. -/
def updItems (s : BSel) (f : SimpleBlock → SimpleBlock) :
    Nat → List SimpleBlock → List SimpleBlock
  | _, [] => []
  | i, b :: bs => (if coveredP s i then f b else b) :: updItems s f (i + 1) bs

/-- `Transforms.setNodes` over the document (default match: lowest blocks):
apply `f` to every covered leaf-bearing block, at top level and inside
containers; containers themselves are not lowest and are untouched. -/
def updGo (s : BSel) (f : SimpleBlock → SimpleBlock) : Nat → Doc → Doc
  | _, [] => []
  | i, TopNode.blk b :: xs =>
    (if coveredP s i then TopNode.blk (f b) else TopNode.blk b) ::
      updGo s f (i + 1) xs
  | i, TopNode.container t a items :: xs =>
    TopNode.container t a (updItems s f i items) ::
      updGo s f (i + items.length) xs

/-- `Transforms.unwrapNodes` with the source's matcher (elements of a list
type) and `split: true`: a list container whose item window meets the
selection is split around the covered items, which are spliced up to the
top level; the uncovered prefix and suffix stay in their own containers,
and a side that would be empty is dropped. -/
def unwrapGo (s : BSel) : Nat → Doc → Doc
  | _, [] => []
  | i, TopNode.blk b :: xs => TopNode.blk b :: unwrapGo s (i + 1) xs
  | i, TopNode.container t a items :: xs =>
    if isListTy t = true ∧ interP s i items.length then
      (if items.take (s.lo - i) = [] then []
       else [TopNode.container t a (items.take (s.lo - i))]) ++
      ((items.take (s.lo + s.len - i)).drop (s.lo - i)).map TopNode.blk ++
      (if items.drop (s.lo + s.len - i) = [] then []
       else [TopNode.container t a (items.drop (s.lo + s.len - i))]) ++
      unwrapGo s (i + items.length) xs
    else
      TopNode.container t a items :: unwrapGo s (i + items.length) xs

/-- Helper for `wrapGo`: collect the consecutive covered leaf-bearing
top-level blocks starting at position `i`, returning them together with the
first node list not collected. -/
def wrapCollect (s : BSel) : Nat → Doc → List SimpleBlock × Doc
  | _, [] => ([], [])
  | i, TopNode.blk b :: xs =>
    if coveredP s i then
      let r := wrapCollect s (i + 1) xs
      (b :: r.1, r.2)
    else ([], TopNode.blk b :: xs)
  | _, TopNode.container t a items :: xs =>
    ([], TopNode.container t a items :: xs)

/-- `Transforms.wrapNodes`: the covered run of contiguous top-level blocks
is replaced by one new container of the given type holding them;
`wrapNodes` wraps the selected range once, so the walk ends after the
container is emitted (the selection interval is exhausted by the run). -/
def wrapGo (s : BSel) (t : String) : Nat → Doc → Doc
  | _, [] => []
  | i, TopNode.container ct a items :: xs =>
    TopNode.container ct a items :: wrapGo s t (i + items.length) xs
  | i, TopNode.blk b :: xs =>
    if coveredP s i then
      let r := wrapCollect s (i + 1) xs
      TopNode.container t none (b :: r.1) :: r.2
    else
      TopNode.blk b :: wrapGo s t (i + 1) xs

/-- `toggleBlock` from the source: query activity, unconditionally unwrap
any enclosing list containers (with split), set the new type on the covered
blocks, and wrap in a fresh list container when turning a list on.  With no
selection every Slate transform is a no-op and the query is false. -/
def toggleBlock (format : String) (sel : Option BSel) (doc : Doc) : Doc :=
  match sel with
  | none => doc
  | some s =>
    let isActive := isBlockActive format sel doc
    let isList := isListTy format
    let d1 := unwrapGo s 0 doc
    let newTy := if isActive then "paragraph"
                 else if isList then "list-item" else format
    let d2 := updGo s (fun b => { b with ty := newTy }) 0 d1
    if !isActive && isList then wrapGo s format 0 d2 else d2

/-- `toggleAlign` from the source: one global `isAlignActive` query decides
whether `setNodes` stores `undefined` (clearing the key) or the alignment,
and that same value is applied to every covered block. -/
def toggleAlign (al : String) (sel : Option BSel) (doc : Doc) : Doc :=
  match sel with
  | none => doc
  | some s =>
    let active := isAlignActive al sel doc
    updGo s (fun b => { b with align := if active then none else some al })
      0 doc

/-- Apply `f` to every covered leaf of a leaf run starting at position `i`. -/
def mapLeafList (s : LSel) (f : TextLeaf → TextLeaf) :
    Nat → List TextLeaf → List TextLeaf
  | _, [] => []
  | i, l :: ls => (if coveredL s i then f l else l) :: mapLeafList s f (i + 1) ls

/-- Apply `f` to every covered leaf inside a run of item blocks. -/
def mapItemsLeaves (s : LSel) (f : TextLeaf → TextLeaf) :
    Nat → List SimpleBlock → List SimpleBlock
  | _, [] => []
  | i, b :: bs =>
    { b with children := mapLeafList s f i b.children } ::
      mapItemsLeaves s f (i + b.children.length) bs

/-- Apply `f` to every covered leaf of the document
(`Transforms.setNodes` on text nodes, as performed by `Editor.addMark`
over an expanded selection). -/
def mapLeavesGo (s : LSel) (f : TextLeaf → TextLeaf) : Nat → Doc → Doc
  | _, [] => []
  | i, TopNode.blk b :: xs =>
    TopNode.blk { b with children := mapLeafList s f i b.children } ::
      mapLeavesGo s f (i + b.children.length) xs
  | i, TopNode.container t a items :: xs =>
    TopNode.container t a (mapItemsLeaves s f i items) ::
      mapLeavesGo s f (i + itemsLeafLen items) xs

/-- `toggleFormat` from the source: `Editor.addMark(editor, format,
!isActive)` — the key is set to the negated activity value on every leaf of
the selection; it is never removed.  With no selection nothing happens. -/
def toggleFormat (m : Mark) (sel : Option LSel) (doc : Doc) : Doc :=
  match sel with
  | none => doc
  | some s =>
    let isActive := isFormatActive m sel doc
    mapLeavesGo s (fun l => setMark m (some (!isActive)) l) 0 doc

/-! ## The DOCX serializer -/

/-- The four values of `AlignmentType` used by the alignment map. -/
inductive DocxAlign where
  | left
  | center
  | right
  | justified
deriving DecidableEq

/-- An export record: a `TextRun` or a `Paragraph` as constructed by
`serializeToDocx` (heading level, bullet level, numbering reference and
level, alignment; absent options are `none`). -/
inductive DocxElem where
  | run (text : String) (bold : Option Bool) (italics : Option Bool)
      (strike : Option Bool) (underline : Option String)
  | para (children : List DocxElem) (heading : Option Nat)
      (bullet : Option Nat) (numbering : Option (String × Nat))
      (alignment : Option DocxAlign)

/-- The `alignmentMap` lookup: an unrecognized key yields `undefined`. -/
def alignmentMap (a : String) : Option DocxAlign :=
  if a = "left" then some DocxAlign.left
  else if a = "center" then some DocxAlign.center
  else if a = "right" then some DocxAlign.right
  else if a = "justify" then some DocxAlign.justified
  else none

/-- `node.align ? alignmentMap[node.align] : AlignmentType.LEFT`. -/
def docxAlignment : Option String → Option DocxAlign
  | none => some DocxAlign.left
  | some a => alignmentMap a

/-- A node as seen by the serializer (it is typed `any[]` in the source):
a text leaf or an element with an arbitrary type string. -/
inductive SNode where
  | text (t : TextLeaf)
  | element (ty : String) (align : Option String) (children : List SNode)

/-- `serializeToDocx`: map each node and flatten.  Texts become runs
(underline truthiness selects the single-underline style); elements first
serialize their children, then branch on the type string: headings and the
default case produce one paragraph holding the serialized children, while
each list case wraps every serialized child in its own marker-carrying
paragraph. -/
def serializeToDocx : List SNode → List DocxElem
  | [] => []
  | SNode.text t :: ns =>
    DocxElem.run t.text t.bold t.italic t.strike
        (if t.underline = some true then some "single" else none) ::
      serializeToDocx ns
  | SNode.element ty al cs :: ns =>
    (let children := serializeToDocx cs
     let alignment := docxAlignment al
     if ty = "heading-one" then
       [DocxElem.para children (some 1) none none alignment]
     else if ty = "heading-two" then
       [DocxElem.para children (some 2) none none alignment]
     else if ty = "heading-three" then
       [DocxElem.para children (some 3) none none alignment]
     else if ty = "bulleted-list" then
       children.map (fun c => DocxElem.para [c] none (some 0) none alignment)
     else if ty = "numbered-list" then
       children.map (fun c =>
         DocxElem.para [c] none none (some ("default-numbering", 0)) alignment)
     else [DocxElem.para children none none none alignment]) ++
      serializeToDocx ns

/-! ## Hydration -/

/-- A JSON value, the result of `JSON.parse` on the stored string. -/
inductive JValue where
  | null
  | bool (b : Bool)
  | num (n : Int)
  | str (s : String)
  | arr (xs : List JValue)
  | obj (fields : List (String × JValue))

/-- The `defaultValue` document of the page as a JSON value. -/
def defaultValue : JValue :=
  JValue.arr [JValue.obj
    [("type", JValue.str "paragraph"),
     ("children", JValue.arr [JValue.obj [("text", JValue.str "")]])]]

/-- The hydration effect of `Home`: `localStorage.getItem` followed by an
unguarded `JSON.parse` and `setValue`.  The input is `none` when nothing
usable is stored (a null or empty string, which is falsy), otherwise the
outcome of `JSON.parse` on the stored string; `Except.error` models the
uncaught exception that propagates when parsing throws.  No structural
validation is performed on a successfully parsed value. -/
def hydrate (saved : Option (Except Unit JValue)) : Except Unit JValue :=
  match saved with
  | none => Except.ok defaultValue
  | some (Except.error _) => Except.error ()
  | some (Except.ok v) => Except.ok v

/-! ## Definitions following the spec's words (for comparison with the
source behavior) -/

/-- Modelled from the spec: `SetAlignment(direction)` as the spec states it
for claim C1 — for every block intersecting the selection, independently,
clear `align` if it already equals the direction and set it otherwise. -/
def specSetAlignment (al : String) (s : BSel) (doc : Doc) : Doc :=
  updGo s
    (fun b => if b.align = some al then { b with align := none }
              else { b with align := some al })
    0 doc

/-- Modelled from the spec: the label the priority table H1 → H2 → H3 →
Normal assigns to a single block type (used to express what an
anchor-determined `currentBlockLabel` would return). -/
def headingLabelOf (ty : String) : String :=
  if ty = "heading-one" then "H1"
  else if ty = "heading-two" then "H2"
  else if ty = "heading-three" then "H3"
  else "Normal"

/-- Invariant 1 of the spec at the top level: no list-item block sits
outside a list container. -/
def noOrphans (d : Doc) : Prop :=
  ∀ n ∈ d, ∀ b, n = TopNode.blk b → b.ty ≠ "list-item"

/-! ## Helper lemmas: indexing through `setNodes` -/

set_option maxRecDepth 2000 in
theorem nth_updItems (s : BSel) (f : SimpleBlock → SimpleBlock)
    (xs : List SimpleBlock) (i j : Nat) :
    nth (updItems s f i xs) j
      = (nth xs j).map (fun b => if coveredP s (i + j) then f b else b) := by
  induction xs generalizing i j with
  | nil => simp [nth, updItems]
  | cons b bs ih =>
    cases j with
    | zero => simp [nth, updItems]
    | succ j =>
      have h2 : i + (j + 1) = (i + 1) + j := by omega
      simp only [nth, updItems, ih, h2]

set_option maxRecDepth 2000 in
theorem updItems_append (s : BSel) (f : SimpleBlock → SimpleBlock)
    (xs ys : List SimpleBlock) (i : Nat) :
    updItems s f i (xs ++ ys)
      = updItems s f i xs ++ updItems s f (i + xs.length) ys := by
  induction xs generalizing i with
  | nil => simp [updItems]
  | cons b bs ih =>
    have h2 : i + (bs.length + 1) = (i + 1) + bs.length := by omega
    simp only [List.cons_append, updItems, List.append_eq, ih, List.length_cons, h2]

set_option maxRecDepth 2000 in
theorem flatBlocks_updGo (s : BSel) (f : SimpleBlock → SimpleBlock)
    (d : Doc) (i : Nat) :
    flatBlocks (updGo s f i d) = updItems s f i (flatBlocks d) := by
  induction d generalizing i with
  | nil => simp [flatBlocks, updGo, updItems]
  | cons x xs ih =>
    cases x with
    | blk b =>
      by_cases h : coveredP s i
      · rw [updGo, if_pos h]
        rw [show flatBlocks (TopNode.blk b :: xs) = b :: flatBlocks xs from rfl]
        rw [show flatBlocks (TopNode.blk (f b) :: updGo s f (i + 1) xs)
              = f b :: flatBlocks (updGo s f (i + 1) xs) from rfl]
        rw [updItems, if_pos h, ih]
      · rw [updGo, if_neg h]
        rw [show flatBlocks (TopNode.blk b :: xs) = b :: flatBlocks xs from rfl]
        rw [show flatBlocks (TopNode.blk b :: updGo s f (i + 1) xs)
              = b :: flatBlocks (updGo s f (i + 1) xs) from rfl]
        rw [updItems, if_neg h, ih]
    | container t a items =>
      rw [updGo]
      rw [show flatBlocks (TopNode.container t a items :: xs)
            = items ++ flatBlocks xs from rfl]
      rw [show flatBlocks (TopNode.container t a (updItems s f i items) :: updGo s f (i + items.length) xs)
            = updItems s f i items ++ flatBlocks (updGo s f (i + items.length) xs) from rfl]
      rw [updItems_append, ih]

/-! ## Claim theorems -/

/-- Claim C10: with no selection, `isBlockActive` returns false (for every
document and block type) without error, and `getCurrentHeading` returns
Normal, so the no-selection case is a safe no-op for the block queries. -/
theorem isBlockActive_no_selection (doc : Doc) (ty : String) :
    isBlockActive ty none doc = false ∧ getCurrentHeading none doc = "Normal" :=
  ⟨rfl, rfl⟩

/-- Claim C7: serializing a single Paragraph block containing exactly one
leaf with text Hello and bold true and no alignment yields exactly one
export paragraph, with alignment Left, containing exactly one run with that
text and bold true (all other run options absent). -/
theorem serialize_paragraph_hello_bold :
    serializeToDocx
        [SNode.element "paragraph" none
          [SNode.text ⟨"Hello", some true, none, none, none, none⟩]]
      = [DocxElem.para [DocxElem.run "Hello" (some true) none none none]
          none none none (some DocxAlign.left)] := by
  simp [serializeToDocx, docxAlignment, alignmentMap]

/-- Claim C5 (evaluation at the failing input): serializing a BulletList of
three ListItems yields three bullet paragraphs (level 0, in order, none for
the container itself), but each one holds a single nested paragraph that
wraps the runs of the source item, instead of holding the runs directly:
the recursive call first serializes each list-item to a paragraph of runs,
and the bulleted-list case then wraps that paragraph in the marker
paragraph. -/
theorem serialize_bullet_list_nests_paragraphs :
    serializeToDocx
        [SNode.element "bulleted-list" none
          [SNode.element "list-item" none
            [SNode.text ⟨"a", none, none, none, none, none⟩],
           SNode.element "list-item" none
            [SNode.text ⟨"b", none, none, none, none, none⟩],
           SNode.element "list-item" none
            [SNode.text ⟨"c", none, none, none, none, none⟩]]]
      = [DocxElem.para
           [DocxElem.para [DocxElem.run "a" none none none none]
             none none none (some DocxAlign.left)]
           none (some 0) none (some DocxAlign.left),
         DocxElem.para
           [DocxElem.para [DocxElem.run "b" none none none none]
             none none none (some DocxAlign.left)]
           none (some 0) none (some DocxAlign.left),
         DocxElem.para
           [DocxElem.para [DocxElem.run "c" none none none none]
             none none none (some DocxAlign.left)]
           none (some 0) none (some DocxAlign.left)] := by
  simp [serializeToDocx, docxAlignment, alignmentMap]

/-- Claim C9: any block element whose type is none of the five specially
handled types — in particular a CodeBlock — serializes to exactly what the
Paragraph mapping produces for the same children and alignment; the switch
has a total default case, so serialization of unknown types never aborts. -/
theorem serialize_default_as_paragraph (ty : String) (al : Option String)
    (cs : List SNode)
    (h1 : ty ≠ "heading-one") (h2 : ty ≠ "heading-two")
    (h3 : ty ≠ "heading-three") (h4 : ty ≠ "bulleted-list")
    (h5 : ty ≠ "numbered-list") :
    serializeToDocx [SNode.element ty al cs]
      = serializeToDocx [SNode.element "paragraph" al cs] := by
  simp only [serializeToDocx]
  rw [if_neg h1, if_neg h2, if_neg h3, if_neg h4, if_neg h5]
  rw [if_neg (by decide : ¬ ("paragraph" = "heading-one")),
      if_neg (by decide : ¬ ("paragraph" = "heading-two")),
      if_neg (by decide : ¬ ("paragraph" = "heading-three")),
      if_neg (by decide : ¬ ("paragraph" = "bulleted-list")),
      if_neg (by decide : ¬ ("paragraph" = "numbered-list"))]

/-- Claim C9 witness: the theorem applied to a concrete CodeBlock node. -/
theorem serialize_default_as_paragraph_witness :
    ("code-block" ≠ "heading-one" ∧ "code-block" ≠ "heading-two" ∧
     "code-block" ≠ "heading-three" ∧ "code-block" ≠ "bulleted-list" ∧
     "code-block" ≠ "numbered-list") ∧
    serializeToDocx
        [SNode.element "code-block" none
          [SNode.text ⟨"x", none, none, none, none, none⟩]]
      = serializeToDocx
        [SNode.element "paragraph" none
          [SNode.text ⟨"x", none, none, none, none, none⟩]] :=
  ⟨by decide,
   serialize_default_as_paragraph "code-block" none
     [SNode.text ⟨"x", none, none, none, none, none⟩]
     (by decide) (by decide) (by decide) (by decide) (by decide)⟩

/-- Claim C2 (amended): hydration substitutes the default document only
when nothing usable is stored; a stored string that parses as JSON is
installed verbatim with no structural validation, and a stored string that
fails to parse raises an uncaught error. -/
theorem hydrate_no_validation :
    hydrate none = Except.ok defaultValue
    ∧ (∀ v, hydrate (some (Except.ok v)) = Except.ok v)
    ∧ hydrate (some (Except.error ())) = Except.error () :=
  ⟨rfl, fun _ => rfl, rfl⟩

/-- Claim C2 (counterexample): the stored JSON number 42 is not a
well-formed persisted document, yet hydration installs it instead of the
default document, and a stored value that fails to parse raises instead of
yielding the default. -/
theorem hydrate_malformed_not_default :
    hydrate (some (Except.ok (JValue.num 42))) ≠ Except.ok defaultValue
    ∧ hydrate (some (Except.error ())) = Except.error () := by
  constructor
  · intro h
    have h2 : JValue.num 42 = defaultValue := by injection h
    exact absurd h2 (by rw [defaultValue]; exact fun hh => JValue.noConfusion hh)
  · rfl

/-- Claim C8 (amended): `getCurrentHeading` always returns one of Normal,
H1, H2, H3, deciding in the priority order H1 then H2 then H3 then Normal;
each outcome is characterized by `isBlockActive` over the whole (unhung)
selection range, not only by the block at the selection anchor. -/
theorem getCurrentHeading_priority (sel : Option BSel) (doc : Doc) :
    (getCurrentHeading sel doc = "H1" ∨ getCurrentHeading sel doc = "H2" ∨
     getCurrentHeading sel doc = "H3" ∨ getCurrentHeading sel doc = "Normal")
    ∧ (getCurrentHeading sel doc = "H1" ↔
        isBlockActive "heading-one" sel doc = true)
    ∧ (getCurrentHeading sel doc = "H2" ↔
        (isBlockActive "heading-one" sel doc = false ∧
         isBlockActive "heading-two" sel doc = true))
    ∧ (getCurrentHeading sel doc = "H3" ↔
        (isBlockActive "heading-one" sel doc = false ∧
         isBlockActive "heading-two" sel doc = false ∧
         isBlockActive "heading-three" sel doc = true))
    ∧ (getCurrentHeading sel doc = "Normal" ↔
        (isBlockActive "heading-one" sel doc = false ∧
         isBlockActive "heading-two" sel doc = false ∧
         isBlockActive "heading-three" sel doc = false)) := by
  cases h1 : isBlockActive "heading-one" sel doc <;>
    cases h2 : isBlockActive "heading-two" sel doc <;>
      cases h3 : isBlockActive "heading-three" sel doc <;>
        simp [getCurrentHeading, h1, h2, h3]

/-- Claim C8 (counterexample): for the three-block document below with the
selection spanning all three blocks, the nearest enclosing block at the
selection anchor is the heading-two block at flat position 0 (or, reading
the anchor as the other end of the range, the heading-three block at
position 2), whose priority-table labels are H2 and H3; yet the code
returns H1, found at a block in the middle of the range, so the result is
not determined by the block at the anchor. -/
theorem getCurrentHeading_not_anchor_determined :
    getCurrentHeading (some ⟨0, 3⟩)
        [TopNode.blk ⟨"heading-two", none, [⟨"a", none, none, none, none, none⟩]⟩,
         TopNode.blk ⟨"heading-one", none, [⟨"b", none, none, none, none, none⟩]⟩,
         TopNode.blk ⟨"heading-three", none, [⟨"c", none, none, none, none, none⟩]⟩]
      = "H1"
    ∧ (nth (flatBlocks
        [TopNode.blk ⟨"heading-two", none, [⟨"a", none, none, none, none, none⟩]⟩,
         TopNode.blk ⟨"heading-one", none, [⟨"b", none, none, none, none, none⟩]⟩,
         TopNode.blk ⟨"heading-three", none, [⟨"c", none, none, none, none, none⟩]⟩]) 0).map
        (fun b => headingLabelOf b.ty) = some "H2"
    ∧ (nth (flatBlocks
        [TopNode.blk ⟨"heading-two", none, [⟨"a", none, none, none, none, none⟩]⟩,
         TopNode.blk ⟨"heading-one", none, [⟨"b", none, none, none, none, none⟩]⟩,
         TopNode.blk ⟨"heading-three", none, [⟨"c", none, none, none, none, none⟩]⟩]) 2).map
        (fun b => headingLabelOf b.ty) = some "H3" := by
  refine ⟨by decide, by decide, by decide⟩

/-- Claim C1 (amended): `toggleAlign` evaluates `isAlignActive` once for
the whole selection; every covered block then receives the same outcome —
alignment cleared when the direction is active anywhere in the range, set
to the direction otherwise — and blocks outside the selection are
unchanged.  Toggling is not decided per block. -/
theorem toggleAlign_global_toggle (doc : Doc) (s : BSel) (al : String)
    (i : Nat) :
    nth (flatBlocks (toggleAlign al (some s) doc)) i
      = (nth (flatBlocks doc) i).map
          (fun b => if coveredP s i then
              { b with align :=
                  if isAlignActive al (some s) doc then none else some al }
            else b) := by
  show nth (flatBlocks (updGo s _ 0 doc)) i = _
  rw [flatBlocks_updGo, nth_updItems]
  simp

/-- Claim C1 (counterexample): with two selected blocks, the first aligned
center and the second unaligned, `toggleAlign` center clears both (the
global query is true because of the first block), whereas the per-block
semantics of the claim would set the second block to center; so the
command is not applied independently per block. -/
theorem toggleAlign_not_per_block :
    toggleAlign "center" (some ⟨0, 2⟩)
        [TopNode.blk ⟨"paragraph", some "center", [⟨"a", none, none, none, none, none⟩]⟩,
         TopNode.blk ⟨"paragraph", none, [⟨"b", none, none, none, none, none⟩]⟩]
      ≠ specSetAlignment "center" ⟨0, 2⟩
        [TopNode.blk ⟨"paragraph", some "center", [⟨"a", none, none, none, none, none⟩]⟩,
         TopNode.blk ⟨"paragraph", none, [⟨"b", none, none, none, none, none⟩]⟩] := by
  decide

/-! ## Helper lemmas: leaves and marks -/

theorem nth_eq_none_iff (xs : List α) (j : Nat) :
    nth xs j = none ↔ xs.length ≤ j := by
  induction xs generalizing j with
  | nil => simp [nth]
  | cons x xs ih =>
    cases j with
    | zero => simp [nth]
    | succ j => simp [nth, ih]

theorem nth_append_left (xs ys : List α) (j : Nat) (h : j < xs.length) :
    nth (xs ++ ys) j = nth xs j := by
  induction xs generalizing j with
  | nil => simp at h
  | cons x xs ih =>
    cases j with
    | zero => simp [nth]
    | succ j =>
      simp only [List.length_cons] at h
      simp only [List.cons_append, nth]
      exact ih j (by omega)

theorem nth_append_right (xs ys : List α) (j : Nat) :
    nth (xs ++ ys) (xs.length + j) = nth ys j := by
  induction xs with
  | nil => simp [nth]
  | cons x xs ih =>
    simp only [List.cons_append, List.length_cons]
    have h2 : xs.length + 1 + j = (xs.length + j) + 1 := by omega
    rw [h2]
    simp only [nth]
    exact ih

theorem nth_lt_of_some (xs : List α) (j : Nat) (l : α)
    (h : nth xs j = some l) : j < xs.length := by
  by_contra hc
  rw [(nth_eq_none_iff xs j).mpr (by omega)] at h
  exact Option.noConfusion h

theorem getMark_setMark (m : Mark) (v : Option Bool) (l : TextLeaf) :
    getMark (setMark m v l) m = v := by
  cases m <;> simp [getMark, setMark]

theorem setMark_setMark (m : Mark) (v w : Option Bool) (l : TextLeaf) :
    setMark m v (setMark m w l) = setMark m v l := by
  cases m <;> simp [setMark]

theorem setMark_self (m : Mark) (v : Option Bool) (l : TextLeaf)
    (h : getMark l m = v) : setMark m v l = l := by
  cases m <;> (cases l; simp [getMark] at h; simp [setMark, h])

theorem mapLeafList_length (s : LSel) (f : TextLeaf → TextLeaf)
    (xs : List TextLeaf) (i : Nat) :
    (mapLeafList s f i xs).length = xs.length := by
  induction xs generalizing i with
  | nil => simp [mapLeafList]
  | cons l ls ih => simp [mapLeafList, ih]

theorem mapLeafList_append (s : LSel) (f : TextLeaf → TextLeaf)
    (xs ys : List TextLeaf) (i : Nat) :
    mapLeafList s f i (xs ++ ys)
      = mapLeafList s f i xs ++ mapLeafList s f (i + xs.length) ys := by
  induction xs generalizing i with
  | nil => simp [mapLeafList]
  | cons l ls ih =>
    have h2 : i + (ls.length + 1) = (i + 1) + ls.length := by omega
    simp only [List.cons_append, mapLeafList, List.append_eq, ih,
      List.length_cons, h2]

theorem itemsLeafLen_eq (items : List SimpleBlock) :
    itemsLeafLen items = (leavesOfBlocks items).length := by
  induction items with
  | nil => simp [itemsLeafLen, leavesOfBlocks]
  | cons b bs ih => simp [itemsLeafLen, leavesOfBlocks, ih]

theorem leavesOfBlocks_mapItemsLeaves (s : LSel) (f : TextLeaf → TextLeaf)
    (items : List SimpleBlock) (i : Nat) :
    leavesOfBlocks (mapItemsLeaves s f i items)
      = mapLeafList s f i (leavesOfBlocks items) := by
  induction items generalizing i with
  | nil => simp [leavesOfBlocks, mapItemsLeaves, mapLeafList]
  | cons b bs ih =>
    simp only [mapItemsLeaves, leavesOfBlocks, mapLeafList_append, ih]

theorem docLeaves_mapLeavesGo (s : LSel) (f : TextLeaf → TextLeaf)
    (d : Doc) (i : Nat) :
    docLeaves (mapLeavesGo s f i d) = mapLeafList s f i (docLeaves d) := by
  induction d generalizing i with
  | nil => simp [docLeaves, mapLeavesGo, mapLeafList]
  | cons x xs ih =>
    cases x with
    | blk b =>
      simp only [mapLeavesGo, docLeaves, mapLeafList_append, ih]
    | container t a items =>
      simp only [mapLeavesGo, docLeaves, mapLeafList_append, ih,
        leavesOfBlocks_mapItemsLeaves, itemsLeafLen_eq]

theorem nth_mapLeafList (s : LSel) (f : TextLeaf → TextLeaf)
    (xs : List TextLeaf) (i j : Nat) :
    nth (mapLeafList s f i xs) j
      = (nth xs j).map (fun l => if coveredL s (i + j) then f l else l) := by
  induction xs generalizing i j with
  | nil => simp [nth, mapLeafList]
  | cons l ls ih =>
    cases j with
    | zero => simp [nth, mapLeafList]
    | succ j =>
      have h2 : i + (j + 1) = (i + 1) + j := by omega
      simp only [nth, mapLeafList, ih, h2]

theorem mapLeafList_comp (s : LSel) (f g : TextLeaf → TextLeaf)
    (xs : List TextLeaf) (i : Nat) :
    mapLeafList s f i (mapLeafList s g i xs)
      = mapLeafList s (fun l => f (g l)) i xs := by
  induction xs generalizing i with
  | nil => simp [mapLeafList]
  | cons l ls ih =>
    by_cases h : coveredL s i
    · simp only [mapLeafList, if_pos h, ih]
    · simp only [mapLeafList, if_neg h, ih]

theorem mapItemsLeaves_comp (s : LSel) (f g : TextLeaf → TextLeaf)
    (items : List SimpleBlock) (i : Nat) :
    mapItemsLeaves s f i (mapItemsLeaves s g i items)
      = mapItemsLeaves s (fun l => f (g l)) i items := by
  induction items generalizing i with
  | nil => simp [mapItemsLeaves]
  | cons b bs ih =>
    simp only [mapItemsLeaves, mapLeafList_comp, mapLeafList_length, ih]

theorem mapLeavesGo_comp (s : LSel) (f g : TextLeaf → TextLeaf)
    (d : Doc) (i : Nat) :
    mapLeavesGo s f i (mapLeavesGo s g i d)
      = mapLeavesGo s (fun l => f (g l)) i d := by
  induction d generalizing i with
  | nil => simp [mapLeavesGo]
  | cons x xs ih =>
    cases x with
    | blk b =>
      simp only [mapLeavesGo, mapLeafList_comp, mapLeafList_length, ih]
    | container t a items =>
      have hlen : itemsLeafLen (mapItemsLeaves s g i items)
          = itemsLeafLen items := by
        rw [itemsLeafLen_eq, itemsLeafLen_eq, leavesOfBlocks_mapItemsLeaves,
          mapLeafList_length]
      simp only [mapLeavesGo, mapItemsLeaves_comp, hlen, ih]

theorem mapLeafList_id (s : LSel) (f : TextLeaf → TextLeaf)
    (xs : List TextLeaf) (i : Nat)
    (h : ∀ j l, coveredL s (i + j) → nth xs j = some l → f l = l) :
    mapLeafList s f i xs = xs := by
  induction xs generalizing i with
  | nil => simp [mapLeafList]
  | cons l ls ih =>
    have hl : (if coveredL s i then f l else l) = l := by
      by_cases hc : coveredL s i
      · rw [if_pos hc]
        exact h 0 l (by simpa using hc) rfl
      · rw [if_neg hc]
    rw [mapLeafList, hl, ih (i + 1)]
    intro j l2 hc hn
    exact h (j + 1) l2 (by omega) hn

theorem mapItemsLeaves_id (s : LSel) (f : TextLeaf → TextLeaf)
    (items : List SimpleBlock) (i : Nat)
    (h : ∀ j l, coveredL s (i + j) →
        nth (leavesOfBlocks items) j = some l → f l = l) :
    mapItemsLeaves s f i items = items := by
  induction items generalizing i with
  | nil => simp [mapItemsLeaves]
  | cons b bs ih =>
    have hch : mapLeafList s f i b.children = b.children := by
      apply mapLeafList_id
      intro j l hc hn
      refine h j l hc ?_
      rw [show leavesOfBlocks (b :: bs) = b.children ++ leavesOfBlocks bs
            from rfl]
      rw [nth_append_left _ _ _ (nth_lt_of_some _ _ _ hn)]
      exact hn
    rw [mapItemsLeaves, hch]
    have : { b with children := b.children } = b := rfl
    rw [this, ih (i + b.children.length)]
    intro j l hc hn
    refine h (b.children.length + j) l (by omega) ?_
    rw [show leavesOfBlocks (b :: bs) = b.children ++ leavesOfBlocks bs
          from rfl]
    rw [nth_append_right]
    exact hn

theorem mapLeavesGo_id (s : LSel) (f : TextLeaf → TextLeaf)
    (d : Doc) (i : Nat)
    (h : ∀ j l, coveredL s (i + j) → nth (docLeaves d) j = some l → f l = l) :
    mapLeavesGo s f i d = d := by
  induction d generalizing i with
  | nil => simp [mapLeavesGo]
  | cons x xs ih =>
    cases x with
    | blk b =>
      have hch : mapLeafList s f i b.children = b.children := by
        apply mapLeafList_id
        intro j l hc hn
        refine h j l hc ?_
        rw [show docLeaves (TopNode.blk b :: xs)
              = b.children ++ docLeaves xs from rfl]
        rw [nth_append_left _ _ _ (nth_lt_of_some _ _ _ hn)]
        exact hn
      rw [mapLeavesGo, hch]
      have hb : { b with children := b.children } = b := rfl
      rw [hb, ih (i + b.children.length)]
      intro j l hc hn
      refine h (b.children.length + j) l (by omega) ?_
      rw [show docLeaves (TopNode.blk b :: xs)
            = b.children ++ docLeaves xs from rfl]
      rw [nth_append_right]
      exact hn
    | container t a items =>
      have hit : mapItemsLeaves s f i items = items := by
        apply mapItemsLeaves_id
        intro j l hc hn
        refine h j l hc ?_
        rw [show docLeaves (TopNode.container t a items :: xs)
              = leavesOfBlocks items ++ docLeaves xs from rfl]
        rw [nth_append_left _ _ _ (nth_lt_of_some _ _ _ hn)]
        exact hn
      rw [mapLeavesGo, hit, ih (i + itemsLeafLen items)]
      intro j l hc hn
      rw [itemsLeafLen_eq] at hc
      refine h ((leavesOfBlocks items).length + j) l (by omega) ?_
      rw [show docLeaves (TopNode.container t a items :: xs)
            = leavesOfBlocks items ++ docLeaves xs from rfl]
      rw [nth_append_right]
      exact hn

/-- Claim C3 (amended): applying ToggleMark(m) twice over the same
unchanged expanded selection returns a document equal to D provided every
leaf in the selection already carries mark m explicitly, with the boolean
value the activity query reads at the start of the range.  (Without that
proviso the key is materialized: `Editor.addMark` stores `m := !active`
rather than removing the key, so an absent key comes back as an explicit
false — see the counterexample.) -/
theorem toggleFormat_twice (doc : Doc) (s : LSel) (m : Mark)
    (h : ∀ j, j < s.len →
        optAll (fun l => getMark l m == some (isFormatActive m (some s) doc))
          (nth (docLeaves doc) (s.lo + j)) = true) :
    toggleFormat m (some s) (toggleFormat m (some s) doc) = doc := by
  cases hlen : s.len with
  | zero =>
    have hid : ∀ (d : Doc), mapLeavesGo s
        (fun l => setMark m (some (!isFormatActive m (some s) d)) l) 0 d = d := by
      intro d
      apply mapLeavesGo_id
      intro j l hc _
      exact absurd hc (by omega)
    show mapLeavesGo s _ 0 (toggleFormat m (some s) doc) = doc
    rw [show toggleFormat m (some s) doc = mapLeavesGo s
          (fun l => setMark m (some (!isFormatActive m (some s) doc)) l) 0 doc
        from rfl]
    rw [hid doc]
    exact hid doc
  | succ k =>
    set a := isFormatActive m (some s) doc with ha
    have hfirst : toggleFormat m (some s) doc
        = mapLeavesGo s (fun l => setMark m (some (!a)) l) 0 doc := rfl
    cases hl0 : nth (docLeaves doc) s.lo with
    | none =>
      have hshort : ∀ j l, coveredL s j → nth (docLeaves doc) j = some l →
          False := by
        intro j l hc hn
        have hj : (docLeaves doc).length ≤ s.lo := (nth_eq_none_iff _ _).mp hl0
        have : (docLeaves doc).length ≤ j := by omega
        rw [(nth_eq_none_iff _ _).mpr this] at hn
        exact Option.noConfusion hn
      have hid1 : toggleFormat m (some s) doc = doc := by
        rw [hfirst]
        apply mapLeavesGo_id
        intro j l hc hn
        exact absurd hn (fun hn => hshort j l (by simpa using hc) hn)
      rw [hid1]
      show mapLeavesGo s _ 0 doc = doc
      apply mapLeavesGo_id
      intro j l hc hn
      exact absurd hn (fun hn => hshort j l (by simpa using hc) hn)
    | some l0 =>
      have hcov0 : coveredL s (0 + s.lo) := by refine ⟨by omega, by omega⟩
      have hnth1 : nth (docLeaves (toggleFormat m (some s) doc)) s.lo
          = some (setMark m (some (!a)) l0) := by
        rw [hfirst, docLeaves_mapLeavesGo, nth_mapLeafList, hl0]
        simp only [Option.map_some']
        rw [if_pos hcov0]
      have ha2 : isFormatActive m (some s) (toggleFormat m (some s) doc)
          = !a := by
        show (match nth (docLeaves (toggleFormat m (some s) doc)) s.lo with
          | none => false
          | some l => getMark l m == some true) = !a
        rw [hnth1]
        simp only [getMark_setMark]
        cases a <;> simp
      show mapLeavesGo s (fun l => setMark m
          (some (!isFormatActive m (some s) (toggleFormat m (some s) doc))) l)
          0 (toggleFormat m (some s) doc) = doc
      rw [ha2, hfirst, mapLeavesGo_comp]
      apply mapLeavesGo_id
      intro j l hc hn
      simp only [Nat.zero_add] at hc
      have hj : j < s.lo + s.len := hc.2
      have hup : getMark l m = some a := by
        have hh := h (j - s.lo) (by omega)
        rw [show s.lo + (j - s.lo) = j by omega, hn] at hh
        simp only [optAll] at hh
        exact beq_iff_eq.mp hh
      rw [setMark_setMark, Bool.not_not]
      exact setMark_self m (some a) l hup

/-- Claim C3 (counterexample): toggling bold twice over a one-leaf
selection whose leaf has no bold key does not return the original
document — the leaf comes back with bold explicitly false. -/
theorem toggleFormat_not_involutive :
    toggleFormat Mark.bold (some ⟨0, 1⟩)
        (toggleFormat Mark.bold (some ⟨0, 1⟩)
          [TopNode.blk ⟨"paragraph", none,
            [⟨"a", none, none, none, none, none⟩]⟩])
      ≠ [TopNode.blk ⟨"paragraph", none,
          [⟨"a", none, none, none, none, none⟩]⟩] := by
  decide

/-- Claim C3 witness: the amended theorem applied to a document whose
selected leaf carries bold explicitly true. -/
theorem toggleFormat_twice_witness :
    (∀ j, j < (⟨0, 1⟩ : LSel).len →
        optAll (fun l => getMark l Mark.bold ==
            some (isFormatActive Mark.bold (some ⟨0, 1⟩)
              [TopNode.blk ⟨"paragraph", none,
                [⟨"a", some true, none, none, none, none⟩]⟩]))
          (nth (docLeaves
            [TopNode.blk ⟨"paragraph", none,
              [⟨"a", some true, none, none, none, none⟩]⟩])
            ((⟨0, 1⟩ : LSel).lo + j)) = true)
    ∧ toggleFormat Mark.bold (some ⟨0, 1⟩)
        (toggleFormat Mark.bold (some ⟨0, 1⟩)
          [TopNode.blk ⟨"paragraph", none,
            [⟨"a", some true, none, none, none, none⟩]⟩])
      = [TopNode.blk ⟨"paragraph", none,
          [⟨"a", some true, none, none, none, none⟩]⟩] :=
  ⟨by decide,
   toggleFormat_twice
     [TopNode.blk ⟨"paragraph", none,
       [⟨"a", some true, none, none, none, none⟩]⟩]
     ⟨0, 1⟩ Mark.bold (by decide)⟩

/-! ## Helper lemmas: block positions and transform traversal -/

theorem flatLen_append (xs ys : Doc) :
    flatLen (xs ++ ys) = flatLen xs + flatLen ys := by
  induction xs with
  | nil => simp [flatLen]
  | cons x xs ih =>
    cases x <;> simp [flatLen, ih] <;> omega

theorem flatLen_map_blk (ms : List SimpleBlock) :
    flatLen (ms.map TopNode.blk) = ms.length := by
  induction ms with
  | nil => simp [flatLen]
  | cons b bs ih => simp [flatLen, ih]; omega

theorem take_app_len (xs ys : List α) : (xs ++ ys).take xs.length = xs := by
  induction xs with
  | nil => simp
  | cons x xs ih => simp [ih]

theorem drop_app_len (xs ys : List α) : (xs ++ ys).drop xs.length = ys := by
  induction xs with
  | nil => simp
  | cons x xs ih => simp [ih]

theorem updGo_append (s : BSel) (f : SimpleBlock → SimpleBlock)
    (xs ys : Doc) (i : Nat) :
    updGo s f i (xs ++ ys)
      = updGo s f i xs ++ updGo s f (i + flatLen xs) ys := by
  induction xs generalizing i with
  | nil => simp [updGo, flatLen]
  | cons x xs ih =>
    cases x with
    | blk b =>
      have h2 : i + (1 + flatLen xs) = (i + 1) + flatLen xs := by omega
      simp only [List.cons_append, updGo, List.append_eq, ih, flatLen, h2]
    | container t a items =>
      have h2 : i + (items.length + flatLen xs)
          = (i + items.length) + flatLen xs := by omega
      simp only [List.cons_append, updGo, List.append_eq, ih, flatLen, h2]

theorem unwrapGo_append (s : BSel) (xs ys : Doc) (i : Nat) :
    unwrapGo s i (xs ++ ys)
      = unwrapGo s i xs ++ unwrapGo s (i + flatLen xs) ys := by
  induction xs generalizing i with
  | nil => simp [unwrapGo, flatLen]
  | cons x xs ih =>
    cases x with
    | blk b =>
      have h2 : i + (1 + flatLen xs) = (i + 1) + flatLen xs := by omega
      simp only [List.cons_append, unwrapGo, List.append_eq, ih, flatLen, h2]
    | container t a items =>
      have h2 : i + (items.length + flatLen xs)
          = (i + items.length) + flatLen xs := by omega
      by_cases hc : isListTy t = true ∧ interP s i items.length
      · rw [List.cons_append, unwrapGo, if_pos hc, unwrapGo, if_pos hc]
        simp only [List.append_eq, ih, flatLen, h2, List.append_assoc]
      · rw [List.cons_append, unwrapGo, if_neg hc, unwrapGo, if_neg hc]
        simp only [List.cons_append, List.append_eq, ih, flatLen, h2]

theorem blockActiveGo_append (s : BSel) (ty : String) (xs ys : Doc) (i : Nat) :
    blockActiveGo s ty i (xs ++ ys)
      = (blockActiveGo s ty i xs || blockActiveGo s ty (i + flatLen xs) ys) := by
  induction xs generalizing i with
  | nil => simp [blockActiveGo, flatLen]
  | cons x xs ih =>
    cases x with
    | blk b =>
      have h2 : i + (1 + flatLen xs) = (i + 1) + flatLen xs := by omega
      by_cases hc : coveredP s i ∧ b.ty = ty
      · rw [List.cons_append, blockActiveGo, if_pos hc, blockActiveGo,
          if_pos hc]
        simp
      · rw [List.cons_append, blockActiveGo, if_neg hc, blockActiveGo,
          if_neg hc]
        simp only [flatLen, h2, ih]
    | container t a items =>
      have h2 : i + (items.length + flatLen xs)
          = (i + items.length) + flatLen xs := by omega
      by_cases hc : interP s i items.length ∧ t = ty
      · rw [List.cons_append, blockActiveGo, if_pos hc, blockActiveGo,
          if_pos hc]
        simp
      · rw [List.cons_append, blockActiveGo, if_neg hc, blockActiveGo,
          if_neg hc]
        by_cases ha : anyItemTy s ty i items = true
        · rw [if_pos ha, if_pos ha]
          simp
        · rw [if_neg ha, if_neg ha]
          simp only [flatLen, h2, ih]

theorem notCov_left (s : BSel) (i : Nat) (h : i < s.lo) : ¬ coveredP s i := by
  intro hc
  omega

theorem notCov_right (s : BSel) (i : Nat)
    (h : s.lo + s.len ≤ i ∨ s.len = 0) : ¬ coveredP s i := by
  intro hc
  omega

theorem notInter_left (s : BSel) (i n : Nat) (h : i + n ≤ s.lo) :
    ¬ interP s i n := by
  intro hc
  omega

theorem notInter_right (s : BSel) (i n : Nat)
    (h : s.lo + s.len ≤ i ∨ s.len = 0) : ¬ interP s i n := by
  intro hc
  omega

theorem updItems_id_nocov (s : BSel) (f : SimpleBlock → SimpleBlock)
    (xs : List SimpleBlock) (i : Nat)
    (h : ∀ j, i ≤ j → ¬ coveredP s j) :
    updItems s f i xs = xs := by
  induction xs generalizing i with
  | nil => simp [updItems]
  | cons b bs ih =>
    rw [updItems, if_neg (h i (Nat.le_refl i)), ih (i + 1)]
    intro j hj
    exact h j (by omega)

theorem anyItemTy_false_nocov (s : BSel) (ty : String)
    (xs : List SimpleBlock) (i : Nat)
    (h : ∀ j, i ≤ j → ¬ coveredP s j) :
    anyItemTy s ty i xs = false := by
  induction xs generalizing i with
  | nil => simp [anyItemTy]
  | cons b bs ih =>
    rw [anyItemTy, if_neg (fun hh => (h i (Nat.le_refl i)) hh.1), ih (i + 1)]
    intro j hj
    exact h j (by omega)

theorem anyItemTy_false_of_ty (s : BSel) (ty : String)
    (xs : List SimpleBlock) (i : Nat)
    (h : ∀ b ∈ xs, b.ty ≠ ty) :
    anyItemTy s ty i xs = false := by
  induction xs generalizing i with
  | nil => simp [anyItemTy]
  | cons b bs ih =>
    rw [anyItemTy, if_neg (fun hh => (h b (by simp)) hh.2), ih (i + 1)]
    intro b2 hb2
    exact h b2 (by simp [hb2])

theorem updItems_id_left (s : BSel) (f : SimpleBlock → SimpleBlock)
    (xs : List SimpleBlock) (i : Nat) (h : i + xs.length ≤ s.lo) :
    updItems s f i xs = xs := by
  induction xs generalizing i with
  | nil => simp [updItems]
  | cons b bs ih =>
    simp only [List.length_cons] at h
    rw [updItems, if_neg (notCov_left s i (by omega)), ih (i + 1) (by omega)]

theorem anyItemTy_false_left (s : BSel) (ty : String)
    (xs : List SimpleBlock) (i : Nat) (h : i + xs.length ≤ s.lo) :
    anyItemTy s ty i xs = false := by
  induction xs generalizing i with
  | nil => simp [anyItemTy]
  | cons b bs ih =>
    simp only [List.length_cons] at h
    rw [anyItemTy, if_neg (fun hh => (notCov_left s i (by omega)) hh.1),
      ih (i + 1) (by omega)]

theorem updGo_id_left (s : BSel) (f : SimpleBlock → SimpleBlock)
    (xs : Doc) (i : Nat) (h : i + flatLen xs ≤ s.lo) :
    updGo s f i xs = xs := by
  induction xs generalizing i with
  | nil => simp [updGo]
  | cons x xs ih =>
    cases x with
    | blk b =>
      rw [flatLen] at h
      rw [updGo, if_neg (notCov_left s i (by omega)), ih (i + 1) (by omega)]
    | container t a items =>
      rw [flatLen] at h
      rw [updGo, updItems_id_left s f items i (by omega),
        ih (i + items.length) (by omega)]

theorem updGo_id_right (s : BSel) (f : SimpleBlock → SimpleBlock)
    (xs : Doc) (i : Nat) (h : s.lo + s.len ≤ i ∨ s.len = 0) :
    updGo s f i xs = xs := by
  induction xs generalizing i with
  | nil => simp [updGo]
  | cons x xs ih =>
    cases x with
    | blk b =>
      rw [updGo, if_neg (notCov_right s i h), ih (i + 1) (by omega)]
    | container t a items =>
      rw [updGo, updItems_id_nocov s f items i
          (fun j hj => notCov_right s j (by omega)),
        ih (i + items.length) (by omega)]

theorem unwrapGo_id_left (s : BSel) (xs : Doc) (i : Nat)
    (h : i + flatLen xs ≤ s.lo) :
    unwrapGo s i xs = xs := by
  induction xs generalizing i with
  | nil => simp [unwrapGo]
  | cons x xs ih =>
    cases x with
    | blk b =>
      rw [flatLen] at h
      rw [unwrapGo, ih (i + 1) (by omega)]
    | container t a items =>
      rw [flatLen] at h
      rw [unwrapGo, if_neg (fun hh =>
          (notInter_left s i items.length (by omega)) hh.2),
        ih (i + items.length) (by omega)]

theorem unwrapGo_id_right (s : BSel) (xs : Doc) (i : Nat)
    (h : s.lo + s.len ≤ i ∨ s.len = 0) :
    unwrapGo s i xs = xs := by
  induction xs generalizing i with
  | nil => simp [unwrapGo]
  | cons x xs ih =>
    cases x with
    | blk b =>
      rw [unwrapGo, ih (i + 1) (by omega)]
    | container t a items =>
      rw [unwrapGo, if_neg (fun hh =>
          (notInter_right s i items.length h) hh.2),
        ih (i + items.length) (by omega)]

theorem blockActiveGo_false_left (s : BSel) (ty : String) (xs : Doc) (i : Nat)
    (h : i + flatLen xs ≤ s.lo) :
    blockActiveGo s ty i xs = false := by
  induction xs generalizing i with
  | nil => simp [blockActiveGo]
  | cons x xs ih =>
    cases x with
    | blk b =>
      rw [flatLen] at h
      rw [blockActiveGo, if_neg (fun hh => (notCov_left s i (by omega)) hh.1),
        ih (i + 1) (by omega)]
    | container t a items =>
      rw [flatLen] at h
      rw [blockActiveGo, if_neg (fun hh =>
          (notInter_left s i items.length (by omega)) hh.1),
        if_neg (by rw [anyItemTy_false_left s ty items i (by omega)]; simp),
        ih (i + items.length) (by omega)]

theorem blockActiveGo_false_right (s : BSel) (ty : String) (xs : Doc) (i : Nat)
    (h : s.lo + s.len ≤ i ∨ s.len = 0) :
    blockActiveGo s ty i xs = false := by
  induction xs generalizing i with
  | nil => simp [blockActiveGo]
  | cons x xs ih =>
    cases x with
    | blk b =>
      rw [blockActiveGo, if_neg (fun hh => (notCov_right s i h) hh.1),
        ih (i + 1) (by omega)]
    | container t a items =>
      rw [blockActiveGo, if_neg (fun hh =>
          (notInter_right s i items.length h) hh.1),
        if_neg (by
          rw [anyItemTy_false_nocov s ty items i
            (fun j hj => notCov_right s j (by omega))]
          simp),
        ih (i + items.length) (by omega)]

theorem wrapCollect_stop (s : BSel) (ys : Doc) (i : Nat)
    (h : s.lo + s.len ≤ i ∨ s.len = 0) :
    wrapCollect s i ys = ([], ys) := by
  cases ys with
  | nil => rfl
  | cons y ys =>
    cases y with
    | blk b => rw [wrapCollect, if_neg (notCov_right s i h)]
    | container t a items => rfl

theorem wrapGo_id_right (s : BSel) (t : String) (xs : Doc) (i : Nat)
    (h : s.lo + s.len ≤ i ∨ s.len = 0) :
    wrapGo s t i xs = xs := by
  induction xs generalizing i with
  | nil => simp [wrapGo]
  | cons x xs ih =>
    cases x with
    | blk b =>
      rw [wrapGo, if_neg (notCov_right s i h), ih (i + 1) (by omega)]
    | container ct a items =>
      rw [wrapGo, ih (i + items.length) (by omega)]

theorem wrapGo_app_left (s : BSel) (t : String) (xs ys : Doc) (i : Nat)
    (h : i + flatLen xs ≤ s.lo) :
    wrapGo s t i (xs ++ ys) = xs ++ wrapGo s t (i + flatLen xs) ys := by
  induction xs generalizing i with
  | nil => simp [flatLen]
  | cons x xs ih =>
    cases x with
    | blk b =>
      rw [flatLen] at h
      have h3 : (i + 1) + flatLen xs = i + (1 + flatLen xs) := by omega
      rw [List.cons_append, wrapGo, if_neg (notCov_left s i (by omega)),
        ih (i + 1) (by omega), h3]
      rfl
    | container ct a items =>
      rw [flatLen] at h
      have h3 : (i + items.length) + flatLen xs
          = i + (items.length + flatLen xs) := by omega
      rw [List.cons_append, wrapGo, ih (i + items.length) (by omega), h3]
      rfl

theorem updGo_run (s : BSel) (f : SimpleBlock → SimpleBlock)
    (ms : List SimpleBlock) (ys : Doc) (i : Nat)
    (hlo : s.lo ≤ i) (hhi : i + ms.length ≤ s.lo + s.len) :
    updGo s f i (ms.map TopNode.blk ++ ys)
      = (ms.map fun b => TopNode.blk (f b)) ++ updGo s f (i + ms.length) ys := by
  induction ms generalizing i with
  | nil => simp [updGo]
  | cons b bs ih =>
    simp only [List.length_cons] at hhi
    have h3 : (i + 1) + bs.length = i + (bs.length + 1) := by omega
    rw [List.map_cons, List.cons_append, updGo,
      if_pos (⟨hlo, by omega⟩ : coveredP s i),
      ih (i + 1) (by omega) (by omega), h3]
    rfl

theorem blockActiveGo_run (s : BSel) (ty : String)
    (ms : List SimpleBlock) (ys : Doc) (i : Nat)
    (hlo : s.lo ≤ i) (hhi : i + ms.length ≤ s.lo + s.len) :
    blockActiveGo s ty i (ms.map TopNode.blk ++ ys)
      = ((ms.any fun b => b.ty == ty) ||
          blockActiveGo s ty (i + ms.length) ys) := by
  induction ms generalizing i with
  | nil => simp [blockActiveGo]
  | cons b bs ih =>
    simp only [List.length_cons] at hhi
    have h3 : (i + 1) + bs.length = i + (bs.length + 1) := by omega
    by_cases hb : b.ty = ty
    · rw [List.map_cons, List.cons_append, blockActiveGo,
        if_pos (⟨⟨hlo, by omega⟩, hb⟩ : coveredP s i ∧ b.ty = ty)]
      simp [hb]
    · rw [List.map_cons, List.cons_append, blockActiveGo,
        if_neg (fun hh => hb hh.2), ih (i + 1) (by omega) (by omega), h3]
      simp only [List.any_cons]
      rw [show (b.ty == ty) = false by simp [hb]]
      simp

theorem unwrapGo_map_blk (s : BSel) (ms : List SimpleBlock) (ys : Doc)
    (i : Nat) :
    unwrapGo s i (ms.map TopNode.blk ++ ys)
      = ms.map TopNode.blk ++ unwrapGo s (i + ms.length) ys := by
  induction ms generalizing i with
  | nil => simp
  | cons b bs ih =>
    have h3 : (i + 1) + bs.length = i + (bs.length + 1) := by omega
    rw [List.map_cons, List.cons_append, unwrapGo, ih (i + 1), h3]
    rfl

theorem wrapCollect_run (s : BSel) (ms : List SimpleBlock) (ys : Doc)
    (i : Nat) (hlo : s.lo ≤ i) (hexact : i + ms.length = s.lo + s.len) :
    wrapCollect s i (ms.map TopNode.blk ++ ys) = (ms, ys) := by
  induction ms generalizing i with
  | nil =>
    simp only [List.length_nil] at hexact
    simp only [List.map_nil, List.nil_append]
    exact wrapCollect_stop s ys i (by omega)
  | cons b bs ih =>
    simp only [List.length_cons] at hexact
    rw [List.map_cons, List.cons_append, wrapCollect,
      if_pos (⟨hlo, by omega⟩ : coveredP s i)]
    simp only [ih (i + 1) (by omega) (by omega)]

theorem wrapGo_run (s : BSel) (t : String) (ms : List SimpleBlock) (ys : Doc)
    (hlen : ms.length = s.len) (hne : ms ≠ []) :
    wrapGo s t s.lo (ms.map TopNode.blk ++ ys)
      = TopNode.container t none ms :: ys := by
  cases ms with
  | nil => exact absurd rfl hne
  | cons m0 mt =>
    simp only [List.length_cons] at hlen
    rw [List.map_cons, List.cons_append, wrapGo,
      if_pos (⟨Nat.le_refl s.lo, by omega⟩ : coveredP s s.lo)]
    simp only [wrapCollect_run s mt ys (s.lo + 1) (by omega) (by omega)]

theorem map_congr_mem (f g : α → β) (xs : List α)
    (h : ∀ a ∈ xs, f a = g a) : xs.map f = xs.map g := by
  induction xs with
  | nil => rfl
  | cons x xs ih =>
    rw [List.map_cons, List.map_cons, h x (by simp), ih]
    intro a ha
    exact h a (by simp [ha])

theorem setTy_eq_self (b : SimpleBlock) (t : String) (h : b.ty = t) :
    { b with ty := t } = b := by
  cases b
  cases h
  rfl

theorem any_ty_false (ms : List SimpleBlock) (ty : String)
    (h : ∀ b ∈ ms, b.ty ≠ ty) :
    (ms.any fun b => b.ty == ty) = false := by
  induction ms with
  | nil => rfl
  | cons b bs ih =>
    simp only [List.any_cons]
    rw [show (b.ty == ty) = false by simp [h b (by simp)],
      ih (fun b2 hb2 => h b2 (by simp [hb2]))]
    rfl

theorem any_ty_true (ms : List SimpleBlock) (ty : String)
    (h : ∀ b ∈ ms, b.ty = ty) (hne : ms ≠ []) :
    (ms.any fun b => b.ty == ty) = true := by
  cases ms with
  | nil => exact absurd rfl hne
  | cons b bs =>
    simp only [List.any_cons]
    rw [show (b.ty == ty) = true by simp [h b (by simp)]]
    rfl

theorem toggleBlock_some (T : String) (s : BSel) (doc : Doc) :
    toggleBlock T (some s) doc =
      (if !(isBlockActive T (some s) doc) && isListTy T then
        wrapGo s T 0 (updGo s (fun b => { b with ty :=
          (if isBlockActive T (some s) doc then "paragraph"
           else if isListTy T then "list-item" else T) }) 0 (unwrapGo s 0 doc))
      else updGo s (fun b => { b with ty :=
          (if isBlockActive T (some s) doc then "paragraph"
           else if isListTy T then "list-item" else T) }) 0
            (unwrapGo s 0 doc)) := rfl

theorem toggleBlock_empty_sel (T : String) (s : BSel) (doc : Doc)
    (h : s.len = 0) :
    toggleBlock T (some s) doc = doc := by
  rw [toggleBlock_some,
    unwrapGo_id_right s doc 0 (Or.inr h),
    updGo_id_right s _ doc 0 (Or.inr h)]
  split
  · exact wrapGo_id_right s T doc 0 (Or.inr h)
  · rfl

theorem isBlockActive_shape (s : BSel) (T : String) (pre post : Doc)
    (ns : List SimpleBlock)
    (hlo : s.lo = flatLen pre) (hlen : s.len = ns.length) :
    isBlockActive T (some s) (pre ++ (ns.map TopNode.blk ++ post))
      = ns.any (fun b => b.ty == T) := by
  show blockActiveGo s T 0 _ = _
  rw [blockActiveGo_append, blockActiveGo_false_left s T pre 0 (by omega),
    blockActiveGo_run s T ns post (0 + flatLen pre) (by omega) (by omega),
    blockActiveGo_false_right s T post ((0 + flatLen pre) + ns.length)
      (by omega)]
  simp

theorem unwrapGo_shape (s : BSel) (pre post : Doc) (ns : List SimpleBlock)
    (hlo : s.lo = flatLen pre) (hlen : s.len = ns.length) :
    unwrapGo s 0 (pre ++ (ns.map TopNode.blk ++ post))
      = pre ++ (ns.map TopNode.blk ++ post) := by
  rw [unwrapGo_append, unwrapGo_id_left s pre 0 (by omega),
    unwrapGo_map_blk, unwrapGo_id_right s post ((0 + flatLen pre) + ns.length)
      (by omega)]

theorem updGo_shape (s : BSel) (f : SimpleBlock → SimpleBlock)
    (pre post : Doc) (ns : List SimpleBlock)
    (hlo : s.lo = flatLen pre) (hlen : s.len = ns.length) :
    updGo s f 0 (pre ++ (ns.map TopNode.blk ++ post))
      = pre ++ ((ns.map fun b => TopNode.blk (f b)) ++ post) := by
  rw [updGo_append, updGo_id_left s f pre 0 (by omega),
    updGo_run s f ns post (0 + flatLen pre) (by omega) (by omega),
    updGo_id_right s f post ((0 + flatLen pre) + ns.length) (by omega)]

theorem wrapGo_shape (s : BSel) (T : String) (pre post : Doc)
    (ns : List SimpleBlock)
    (hlo : s.lo = flatLen pre) (hlen : s.len = ns.length) (hne : ns ≠ []) :
    wrapGo s T 0 (pre ++ (ns.map TopNode.blk ++ post))
      = pre ++ (TopNode.container T none ns :: post) := by
  rw [wrapGo_app_left s T pre _ 0 (by omega),
    show 0 + flatLen pre = s.lo by omega,
    wrapGo_run s T ns post (by omega) hne]

theorem flatLen_opt_container (ct : String) (al : Option String)
    (l : List SimpleBlock) :
    flatLen (if l = [] then ([] : Doc) else [TopNode.container ct al l])
      = l.length := by
  by_cases hl : l = []
  · simp [hl, flatLen]
  · simp [hl, flatLen]

theorem isBlockActive_container_eq (s : BSel) (T : String) (pre post : Doc)
    (a : Option String) (ns : List SimpleBlock)
    (hlo : s.lo = flatLen pre) (hlen : s.len = ns.length) (hne : ns ≠ []) :
    isBlockActive T (some s) (pre ++ (TopNode.container T a ns :: post))
      = true := by
  show blockActiveGo s T 0 _ = _
  rw [blockActiveGo_append, blockActiveGo_false_left s T pre 0 (by omega)]
  have hpos : 0 < ns.length := List.length_pos.mpr hne
  rw [blockActiveGo, if_pos (⟨(by omega : s.lo - (0 + flatLen pre) <
      s.lo + s.len - (0 + flatLen pre) ∧ s.lo - (0 + flatLen pre) <
      ns.length), rfl⟩ : interP s (0 + flatLen pre) ns.length ∧ T = T)]
  simp

theorem isBlockActive_container_other (s : BSel) (T : String)
    (pre post : Doc) (ct : String) (al : Option String)
    (items : List SimpleBlock)
    (hlo : flatLen pre ≤ s.lo)
    (hhi : s.lo + s.len ≤ flatLen pre + items.length)
    (hct : ct ≠ T) (hit : ∀ b ∈ items, b.ty ≠ T) :
    isBlockActive T (some s) (pre ++ (TopNode.container ct al items :: post))
      = false := by
  show blockActiveGo s T 0 _ = _
  rw [blockActiveGo_append, blockActiveGo_false_left s T pre 0 (by omega),
    blockActiveGo, if_neg (fun hh => hct hh.2),
    if_neg (by
      rw [anyItemTy_false_of_ty s T items (0 + flatLen pre) hit]
      simp),
    blockActiveGo_false_right s T post ((0 + flatLen pre) + items.length)
      (by omega)]
  simp

theorem unwrapGo_container_split (s : BSel) (pre post : Doc) (ct : String)
    (al : Option String) (l mid r : List SimpleBlock)
    (hct : isListTy ct = true)
    (hlo : s.lo = flatLen pre + l.length) (hlen : s.len = mid.length)
    (hmid : mid ≠ []) :
    unwrapGo s 0 (pre ++ (TopNode.container ct al (l ++ (mid ++ r)) :: post))
      = pre ++ ((if l = [] then [] else [TopNode.container ct al l]) ++
          (mid.map TopNode.blk ++
            ((if r = [] then [] else [TopNode.container ct al r]) ++ post))) := by
  have hmidpos : 0 < mid.length := List.length_pos.mpr hmid
  have e0 : (l ++ (mid ++ r)).length = l.length + mid.length + r.length := by
    simp
    omega
  rw [unwrapGo_append, unwrapGo_id_left s pre 0 (by omega), unwrapGo,
    if_pos (⟨hct, (by omega : s.lo - (0 + flatLen pre) <
        s.lo + s.len - (0 + flatLen pre) ∧ s.lo - (0 + flatLen pre) <
        (l ++ (mid ++ r)).length)⟩ :
      isListTy ct = true ∧ interP s (0 + flatLen pre) (l ++ (mid ++ r)).length)]
  rw [show s.lo - (0 + flatLen pre) = l.length by omega,
    show s.lo + s.len - (0 + flatLen pre) = l.length + mid.length by omega]
  rw [take_app_len l (mid ++ r)]
  rw [show (l ++ (mid ++ r)).take (l.length + mid.length) = l ++ mid by
      rw [← List.append_assoc,
        show l.length + mid.length = (l ++ mid).length by simp,
        take_app_len]]
  rw [drop_app_len l mid]
  rw [show (l ++ (mid ++ r)).drop (l.length + mid.length) = r by
      rw [← List.append_assoc,
        show l.length + mid.length = (l ++ mid).length by simp,
        drop_app_len]]
  rw [unwrapGo_id_right s post ((0 + flatLen pre) + (l ++ (mid ++ r)).length)
      (by rw [e0]; omega)]
  simp [List.append_assoc]

theorem unwrapGo_container_exact (s : BSel) (pre post : Doc) (ct : String)
    (a : Option String) (ns : List SimpleBlock)
    (hct : isListTy ct = true)
    (hlo : s.lo = flatLen pre) (hlen : s.len = ns.length) (hne : ns ≠ []) :
    unwrapGo s 0 (pre ++ (TopNode.container ct a ns :: post))
      = pre ++ (ns.map TopNode.blk ++ post) := by
  have h := unwrapGo_container_split s pre post ct a [] ns [] hct
    (by simpa using hlo) hlen hne
  simpa using h

theorem updGo_split_shape (s : BSel) (f : SimpleBlock → SimpleBlock)
    (pre post : Doc) (ct : String) (al : Option String)
    (l mid r : List SimpleBlock)
    (hlo : s.lo = flatLen pre + l.length) (hlen : s.len = mid.length) :
    updGo s f 0 (pre ++ ((if l = [] then [] else [TopNode.container ct al l]) ++
        (mid.map TopNode.blk ++
          ((if r = [] then [] else [TopNode.container ct al r]) ++ post))))
      = pre ++ ((if l = [] then [] else [TopNode.container ct al l]) ++
          ((mid.map fun b => TopNode.blk (f b)) ++
            ((if r = [] then [] else [TopNode.container ct al r]) ++ post))) := by
  rw [updGo_append, updGo_id_left s f pre 0 (by omega),
    updGo_append, updGo_id_left s f _ (0 + flatLen pre)
      (by rw [flatLen_opt_container]; omega),
    flatLen_opt_container,
    updGo_run s f mid _ ((0 + flatLen pre) + l.length) (by omega) (by omega),
    updGo_append, updGo_id_right s f _ (((0 + flatLen pre) + l.length) + mid.length)
      (by omega),
    updGo_id_right s f post _ (by left; rw [flatLen_opt_container]; omega)]

theorem wrapGo_split_shape (s : BSel) (T : String)
    (pre post : Doc) (ct : String) (al : Option String)
    (l mid r : List SimpleBlock)
    (hlo : s.lo = flatLen pre + l.length) (hlen : s.len = mid.length)
    (hmid : mid ≠ []) :
    wrapGo s T 0 (pre ++ ((if l = [] then [] else [TopNode.container ct al l]) ++
        (mid.map TopNode.blk ++
          ((if r = [] then [] else [TopNode.container ct al r]) ++ post))))
      = pre ++ ((if l = [] then [] else [TopNode.container ct al l]) ++
          (TopNode.container T none mid ::
            ((if r = [] then [] else [TopNode.container ct al r]) ++ post))) := by
  rw [wrapGo_app_left s T pre _ 0 (by omega),
    wrapGo_app_left s T _ _ (0 + flatLen pre)
      (by rw [flatLen_opt_container]; omega),
    flatLen_opt_container,
    show (0 + flatLen pre) + l.length = s.lo by omega,
    wrapGo_run s T mid _ (by omega) hmid]

set_option maxHeartbeats 1000000 in
/-- Claim C6: ToggleBlock T applied twice over the same selection, when the
selection initially covers only top-level plain Paragraph blocks, restores
the document.  A document with such a selection decomposes as
`pre ++ ms.map blk ++ post` with the selection interval exactly the
positions of `ms`. -/
theorem toggleBlock_twice_on_paragraphs (pre post : Doc)
    (ms : List SimpleBlock) (T : String)
    (hms : ∀ b ∈ ms, b.ty = "paragraph") :
    toggleBlock T (some ⟨flatLen pre, ms.length⟩)
        (toggleBlock T (some ⟨flatLen pre, ms.length⟩)
          (pre ++ (ms.map TopNode.blk ++ post)))
      = pre ++ (ms.map TopNode.blk ++ post) := by
  by_cases hne : ms = []
  · subst hne
    rw [toggleBlock_empty_sel _ _ _ rfl, toggleBlock_empty_sel _ _ _ rfl]
  · set s : BSel := (⟨flatLen pre, ms.length⟩ : BSel) with hsdef
    have hslo : s.lo = flatLen pre := rfl
    have hslen : s.len = ms.length := rfl
    by_cases hTp : T = "paragraph"
    · subst hTp
      have hact : isBlockActive "paragraph" (some s)
          (pre ++ (ms.map TopNode.blk ++ post)) = true := by
        rw [isBlockActive_shape s _ pre post ms hslo hslen]
        exact any_ty_true ms _ hms hne
      have hstep : toggleBlock "paragraph" (some s)
          (pre ++ (ms.map TopNode.blk ++ post))
          = pre ++ (ms.map TopNode.blk ++ post) := by
        rw [toggleBlock_some, hact]
        rw [if_neg (by simp)]
        rw [unwrapGo_shape s pre post ms hslo hslen]
        rw [updGo_shape s _ pre post ms hslo hslen]
        have hmap : (ms.map fun b => TopNode.blk
            ({ b with ty := (if (true : Bool) then "paragraph"
              else if isListTy "paragraph" then "list-item"
              else "paragraph") }))
            = ms.map TopNode.blk := by
          refine map_congr_mem _ _ ms (fun b hb => ?_)
          rw [if_pos rfl, setTy_eq_self b _ (hms b hb)]
        rw [hmap]
      rw [hstep, hstep]
    · by_cases hTl : isListTy T = true
      · -- list type: wrap into a container, then unwrap back
        have hTor : T = "bulleted-list" ∨ T = "numbered-list" := by
          simpa [isListTy] using hTl
        have hTnp : "paragraph" ≠ T := by
          rcases hTor with h | h <;> rw [h] <;> decide
        have hmsne : ∀ b ∈ ms, b.ty ≠ T := fun b hb => by
          rw [hms b hb]; exact hTnp
        have hact1 : isBlockActive T (some s)
            (pre ++ (ms.map TopNode.blk ++ post)) = false := by
          rw [isBlockActive_shape s T pre post ms hslo hslen]
          exact any_ty_false ms T hmsne
        have hlenL : (ms.map fun b =>
            ({ b with ty := "list-item" } : SimpleBlock)).length
            = ms.length := by simp
        have hneL : (ms.map fun b =>
            ({ b with ty := "list-item" } : SimpleBlock)) ≠ [] := by
          intro h
          exact hne (by simpa using h)
        have hslenL : s.len = (ms.map fun b =>
            ({ b with ty := "list-item" } : SimpleBlock)).length := by
          rw [hlenL]
        have hstep1 : toggleBlock T (some s)
            (pre ++ (ms.map TopNode.blk ++ post))
            = pre ++ (TopNode.container T none
                (ms.map fun b => ({ b with ty := "list-item" } : SimpleBlock))
                :: post) := by
          rw [toggleBlock_some, hact1, hTl]
          rw [if_pos (by simp)]
          rw [unwrapGo_shape s pre post ms hslo hslen]
          rw [updGo_shape s _ pre post ms hslo hslen]
          have hmap : (ms.map fun b => TopNode.blk
              ({ b with ty := (if (false : Bool) then "paragraph"
                else if (true : Bool) then "list-item" else T) }))
              = (ms.map fun b =>
                  ({ b with ty := "list-item" } : SimpleBlock)).map
                  TopNode.blk := by
            rw [List.map_map]
            rfl
          rw [hmap]
          rw [wrapGo_shape s T pre post _ hslo hslenL hneL]
        have hact2 : isBlockActive T (some s)
            (pre ++ (TopNode.container T none
              (ms.map fun b => ({ b with ty := "list-item" } : SimpleBlock))
              :: post)) = true :=
          isBlockActive_container_eq s T pre post none _ hslo hslenL hneL
        have hstep2 : toggleBlock T (some s)
            (pre ++ (TopNode.container T none
              (ms.map fun b => ({ b with ty := "list-item" } : SimpleBlock))
              :: post))
            = pre ++ (ms.map TopNode.blk ++ post) := by
          rw [toggleBlock_some, hact2]
          rw [if_neg (by simp)]
          rw [unwrapGo_container_exact s pre post T none _ hTl hslo hslenL
            hneL]
          rw [updGo_shape s _ pre post _ hslo hslenL]
          have hmap : ((ms.map fun b =>
              ({ b with ty := "list-item" } : SimpleBlock)).map
                fun b => TopNode.blk
                  ({ b with ty := (if (true : Bool) then "paragraph"
                    else if isListTy T then "list-item" else T) }))
              = ms.map TopNode.blk := by
            rw [List.map_map]
            refine map_congr_mem _ _ ms (fun b hb => ?_)
            show TopNode.blk { b with ty := (if (true : Bool) then "paragraph"
              else if isListTy T then "list-item" else T) } = TopNode.blk b
            rw [if_pos rfl, setTy_eq_self b _ (hms b hb)]
          rw [hmap]
        rw [hstep1, hstep2]
      · -- plain non-list retag: set the type, then set it back
        have hTl2 : isListTy T = false := by
          revert hTl
          cases isListTy T <;> simp
        have hmsne : ∀ b ∈ ms, b.ty ≠ T := fun b hb => by
          rw [hms b hb]
          exact fun h => hTp h.symm
        have hact1 : isBlockActive T (some s)
            (pre ++ (ms.map TopNode.blk ++ post)) = false := by
          rw [isBlockActive_shape s T pre post ms hslo hslen]
          exact any_ty_false ms T hmsne
        have hlenT : (ms.map fun b => ({ b with ty := T } : SimpleBlock)).length
            = ms.length := by simp
        have hneT : (ms.map fun b => ({ b with ty := T } : SimpleBlock)) ≠ [] := by
          intro h
          exact hne (by simpa using h)
        have hslenT : s.len = (ms.map fun b =>
            ({ b with ty := T } : SimpleBlock)).length := by
          rw [hlenT]
        have hstep1 : toggleBlock T (some s)
            (pre ++ (ms.map TopNode.blk ++ post))
            = pre ++ ((ms.map fun b =>
                ({ b with ty := T } : SimpleBlock)).map TopNode.blk ++ post) := by
          rw [toggleBlock_some, hact1, hTl2]
          rw [if_neg (by simp)]
          rw [unwrapGo_shape s pre post ms hslo hslen]
          rw [updGo_shape s _ pre post ms hslo hslen]
          have hmap : (ms.map fun b => TopNode.blk
              ({ b with ty := (if (false : Bool) then "paragraph"
                else if (false : Bool) then "list-item" else T) }))
              = (ms.map fun b => ({ b with ty := T } : SimpleBlock)).map
                  TopNode.blk := by
            rw [List.map_map]
            rfl
          rw [hmap]
        have hallT : ∀ b ∈ (ms.map fun b =>
            ({ b with ty := T } : SimpleBlock)), b.ty = T := by
          intro b hb
          rcases List.mem_map.mp hb with ⟨b2, _, rfl⟩
          rfl
        have hact2 : isBlockActive T (some s)
            (pre ++ ((ms.map fun b =>
              ({ b with ty := T } : SimpleBlock)).map TopNode.blk ++ post))
            = true := by
          rw [isBlockActive_shape s T pre post _ hslo hslenT]
          exact any_ty_true _ T hallT hneT
        have hstep2 : toggleBlock T (some s)
            (pre ++ ((ms.map fun b =>
              ({ b with ty := T } : SimpleBlock)).map TopNode.blk ++ post))
            = pre ++ (ms.map TopNode.blk ++ post) := by
          rw [toggleBlock_some, hact2]
          rw [if_neg (by simp)]
          rw [unwrapGo_shape s pre post _ hslo hslenT]
          rw [updGo_shape s _ pre post _ hslo hslenT]
          have hmap : ((ms.map fun b =>
              ({ b with ty := T } : SimpleBlock)).map
                fun b => TopNode.blk
                  ({ b with ty := (if (true : Bool) then "paragraph"
                    else if isListTy T then "list-item" else T) }))
              = ms.map TopNode.blk := by
            rw [List.map_map]
            refine map_congr_mem _ _ ms (fun b hb => ?_)
            show TopNode.blk { b with ty := (if (true : Bool) then "paragraph"
              else if isListTy T then "list-item" else T) } = TopNode.blk b
            rw [if_pos rfl, setTy_eq_self b _ (hms b hb)]
          rw [hmap]
        rw [hstep1, hstep2]

theorem noOrphans_append (xs ys : Doc) :
    noOrphans (xs ++ ys) ↔ (noOrphans xs ∧ noOrphans ys) := by
  simp [noOrphans, List.mem_append, or_imp, forall_and]

theorem noOrphans_cons_container (t : String) (a : Option String)
    (is : List SimpleBlock) (xs : Doc) :
    noOrphans (TopNode.container t a is :: xs) ↔ noOrphans xs := by
  constructor
  · intro h n hn b hbn
    exact h n (by simp [hn]) b hbn
  · intro h n hn b hbn
    rcases List.mem_cons.mp hn with h2 | h2
    · rw [h2] at hbn
      exact absurd hbn (by simp)
    · exact h n h2 b hbn

theorem noOrphans_if_container (t : String) (a : Option String)
    (l : List SimpleBlock) :
    noOrphans (if l = [] then ([] : Doc) else [TopNode.container t a l]) := by
  by_cases hl : l = [] <;> simp [hl, noOrphans]

set_option maxHeartbeats 1000000 in
/-- Claim C4: ToggleBlock NumberedList on a selection of items inside a
BulletList container splits off the uncovered items into their own bulleted
containers (dropping empty sides), wraps the covered items in exactly one
NumberedList container, and leaves no ListItem block at the top level. -/
theorem toggleBlock_bullet_to_numbered (pre post : Doc) (al : Option String)
    (l mid r : List SimpleBlock)
    (hitems : ∀ b ∈ l ++ (mid ++ r), b.ty = "list-item")
    (hmid : mid ≠ []) :
    toggleBlock "numbered-list" (some ⟨flatLen pre + l.length, mid.length⟩)
        (pre ++ (TopNode.container "bulleted-list" al (l ++ (mid ++ r))
          :: post))
      = pre ++ ((if l = [] then []
            else [TopNode.container "bulleted-list" al l]) ++
          (TopNode.container "numbered-list" none mid ::
            ((if r = [] then []
              else [TopNode.container "bulleted-list" al r]) ++ post)))
    ∧ (noOrphans pre → noOrphans post →
        noOrphans (toggleBlock "numbered-list"
          (some ⟨flatLen pre + l.length, mid.length⟩)
          (pre ++ (TopNode.container "bulleted-list" al (l ++ (mid ++ r))
            :: post)))) := by
  set s : BSel := (⟨flatLen pre + l.length, mid.length⟩ : BSel) with hsdef
  have hslo : s.lo = flatLen pre + l.length := rfl
  have hslen : s.len = mid.length := rfl
  have hact : isBlockActive "numbered-list" (some s)
      (pre ++ (TopNode.container "bulleted-list" al (l ++ (mid ++ r))
        :: post)) = false := by
    refine isBlockActive_container_other s "numbered-list" pre post
      "bulleted-list" al (l ++ (mid ++ r)) (by omega) ?_ (by decide)
      (fun b hb => by rw [hitems b hb]; decide)
    have : (l ++ (mid ++ r)).length = l.length + (mid.length + r.length) := by
      simp
    omega
  have h1 : toggleBlock "numbered-list" (some s)
      (pre ++ (TopNode.container "bulleted-list" al (l ++ (mid ++ r))
        :: post))
      = pre ++ ((if l = [] then []
            else [TopNode.container "bulleted-list" al l]) ++
          (TopNode.container "numbered-list" none mid ::
            ((if r = [] then []
              else [TopNode.container "bulleted-list" al r]) ++ post))) := by
    rw [toggleBlock_some, hact]
    rw [if_pos (by decide)]
    rw [unwrapGo_container_split s pre post "bulleted-list" al l mid r
      (by decide) hslo hslen hmid]
    rw [updGo_split_shape s _ pre post "bulleted-list" al l mid r hslo hslen]
    have hmap : (mid.map fun b => TopNode.blk
        ({ b with ty := (if (false : Bool) then "paragraph"
          else if isListTy "numbered-list" then "list-item"
          else "numbered-list") }))
        = mid.map TopNode.blk := by
      refine map_congr_mem _ _ mid (fun b hb => ?_)
      rw [show (if (false : Bool) then "paragraph"
          else if isListTy "numbered-list" then "list-item"
          else "numbered-list") = "list-item" by decide]
      rw [setTy_eq_self b _ (hitems b (by simp [hb]))]
    rw [hmap]
    rw [wrapGo_split_shape s "numbered-list" pre post "bulleted-list" al
      l mid r hslo hslen hmid]
  refine ⟨h1, fun hp hq => ?_⟩
  rw [h1]
  rw [noOrphans_append]
  refine ⟨hp, ?_⟩
  rw [noOrphans_append]
  refine ⟨noOrphans_if_container _ _ _, ?_⟩
  rw [noOrphans_cons_container]
  rw [noOrphans_append]
  exact ⟨noOrphans_if_container _ _ _, hq⟩

/-- Claim C4 witness: the theorem applied to a one-item bulleted list with
the single item selected. -/
theorem toggleBlock_bullet_to_numbered_witness :
    (∀ b ∈ ([] : List SimpleBlock) ++
        ([⟨"list-item", none, [⟨"x", none, none, none, none, none⟩]⟩] ++
          ([] : List SimpleBlock)), b.ty = "list-item")
    ∧ ([⟨"list-item", none, [⟨"x", none, none, none, none, none⟩]⟩] :
        List SimpleBlock) ≠ []
    ∧ toggleBlock "numbered-list" (some ⟨0, 1⟩)
        [TopNode.container "bulleted-list" none
          [⟨"list-item", none, [⟨"x", none, none, none, none, none⟩]⟩]]
      = [TopNode.container "numbered-list" none
          [⟨"list-item", none, [⟨"x", none, none, none, none, none⟩]⟩]] := by
  refine ⟨by decide, by decide, ?_⟩
  have h := (toggleBlock_bullet_to_numbered [] [] none []
    [⟨"list-item", none, [⟨"x", none, none, none, none, none⟩]⟩] []
    (by decide) (by decide)).1
  simpa [flatLen] using h

/-- Claim C6 witness: the theorem applied to a single selected paragraph
and the block type bulleted-list. -/
theorem toggleBlock_twice_on_paragraphs_witness :
    (∀ b ∈ ([⟨"paragraph", none, [⟨"x", none, none, none, none, none⟩]⟩] :
        List SimpleBlock), b.ty = "paragraph")
    ∧ toggleBlock "bulleted-list" (some ⟨0, 1⟩)
        (toggleBlock "bulleted-list" (some ⟨0, 1⟩)
          [TopNode.blk ⟨"paragraph", none,
            [⟨"x", none, none, none, none, none⟩]⟩])
      = [TopNode.blk ⟨"paragraph", none,
          [⟨"x", none, none, none, none, none⟩]⟩] := by
  refine ⟨by decide, ?_⟩
  have h := toggleBlock_twice_on_paragraphs [] []
    [⟨"paragraph", none, [⟨"x", none, none, none, none, none⟩]⟩]
    "bulleted-list" (by decide)
  simpa [flatLen] using h
